import Mathlib

/-!
Shallow embedding of the `parse-commit-message` TypeScript library
(files `src/commit.ts`, `src/header.ts`, `src/utils.ts`, `src/index.ts`,
`src/plugins/increment.ts`, `src/plugins/mention.ts`) together with
theorems settling the specification claims about it.

Conventions of the embedding:
* JavaScript strings are Lean `String`s; character-level work happens on
  `String.data : List Char`.
* Functions that can `throw` return `Option` (`none` = an exception).
* JavaScript's distinction between a missing object key, a key holding
  `undefined`, a key holding `null` and a key holding a string matters for
  the `body`/`footer` fields of a commit (object spread copies a key whose
  value is `undefined`, but not a missing key), so those fields live in the
  four-valued type `JVal`.
* The default header pattern `^(\w+)(?:\((.+)\))?(!)?: (.+)` is modelled by
  an explicit backtracking matcher (`matchDefaultHeader`); the pattern
  contains no cased literal, so the `i` flag (`caseSensitive: false`) does
  not change its behaviour and the `caseSensitive` option is carried but
  has no effect on the default grammar.  The `headerRegex` override is not
  modelled: no claim involves a custom pattern.
-/

namespace PCM

/-- Character class `\w` of JavaScript regexes: `[A-Za-z0-9_]`. -/
def isWordChar (c : Char) : Bool :=
  ('a' ≤ c && c ≤ 'z') || ('A' ≤ c && c ≤ 'Z') || ('0' ≤ c && c ≤ '9') || c = '_'

/-- JavaScript whitespace (the set trimmed by `String.prototype.trim` and
matched by `\s`): WhiteSpace plus LineTerminator code points. -/
def isJsWs (c : Char) : Bool :=
  c = ' ' || c = '\t' || c = '\n' || c = '\r' ||
  c.toNat = 0x0b || c.toNat = 0x0c ||
  c.toNat = 0xa0 || c.toNat = 0x1680 ||
  (0x2000 <= c.toNat && c.toNat <= 0x200a) ||
  c.toNat = 0x2028 || c.toNat = 0x2029 || c.toNat = 0x202f ||
  c.toNat = 0x205f || c.toNat = 0x3000 || c.toNat = 0xfeff
/-- JavaScript `String.prototype.trim` on a character list. -/
def jsTrim (l : List Char) : List Char :=
  ((l.dropWhile isJsWs).reverse.dropWhile isJsWs).reverse

/-- `str.split("\n\n")`: split on each leftmost non-overlapping occurrence
of a blank-line boundary.  Always returns a non-empty list. -/
def splitNN : List Char → List (List Char)
  | [] => [[]]
  | [c] => [[c]]
  | c :: d :: r =>
    if c = '\n' ∧ d = '\n' then [] :: splitNN r
    else (splitNN (d :: r)).modifyHead (c :: ·)

/-- Join segments with blank-line boundaries: the statement-side left
inverse of `splitNN`, used to quantify over arbitrary segment
decompositions of a commit string. -/
def joinNN : List (List Char) → List Char
  | [] => []
  | [x] => x
  | x :: xs => x ++ '\n' :: '\n' :: joinNN xs

/-- `isNonEmptyString` from `src/utils.ts` (inputs are always strings in
this typed embedding, so only the length test remains). -/
def isNonEmptyString (s : String) : Bool := !s.data.isEmpty

/-- A JavaScript object-field value for `body`/`footer`: the key can be
missing, hold `undefined`, hold `null`, or hold a string. -/
inductive JVal where
  | absent
  | undef
  | null
  | jstr (s : String)
deriving DecidableEq, Repr

/-- `commit.body ?? ""` (and likewise for `footer`): nullish values and a
missing key coalesce to the empty string. -/
def JVal.orEmpty : JVal → String
  | .jstr s => s
  | _ => ""

/-- The `HeaderType` interface: `{ type, scope?, subject }`.  `scope = none`
stands for both a missing and a `null` scope (no code path distinguishes
the two). -/
structure HeaderType where
  type : String
  scope : Option String
  subject : String
deriving DecidableEq, Repr

/-- The `Header` union: a raw `{ value }` header or a structured one. -/
inductive Header where
  | raw (value : String)
  | structured (h : HeaderType)
deriving DecidableEq, Repr

/-- A collected mention `{ handle, mention, index }`. -/
structure Mention where
  index : Nat
  handle : String
  mention : String
deriving DecidableEq, Repr

/-- The `Commit` object.  `extras` models the open-ended extra-field bag
(string-valued, which suffices for the claims). -/
structure Commit where
  header : Header
  body : JVal := .absent
  footer : JVal := .absent
  increment : Option String := none
  isBreaking : Option Bool := none
  mentions : Option (List Mention) := none
  extras : List (String × String) := []
deriving DecidableEq, Repr

/-- Options shared by the engine and the plugins; defaults mirror
`{ caseSensitive: false, normalize: true, ...options }`. -/
structure Options where
  caseSensitive : Bool := false
  normalize : Bool := true
deriving DecidableEq, Repr

/-- The tail `(!)?: (.+)` of the default header pattern: an optional bang,
the literal `": "`, then a greedy run of non-newline characters (at least
one).  Returns the bang group and the subject group. -/
def tailCore (v : List Char) : Option (List Char) :=
  if v.head? = some ':' ∧ (v.drop 1).head? = some ' ' then
    let subj := (v.drop 2).takeWhile (· != '\n')
    if subj.isEmpty then none else some subj
  else none

/-- The optional bang in front of the pattern tail: greedy, and committed —
if `!` is present but the rest fails, skipping the bang cannot help, since
the next literal is `:`. -/
def tailMatch (u : List Char) : Option (List Char × List Char) :=
  let bang : List Char := if u.head? = some '!' then ['!'] else []
  (tailCore (u.drop bang.length)).map (fun subj => (bang, subj))

/-- One backtracking step of the scope group `(?:\((.+)\))?`: try to close
the scope at position `k` of `inner` (the text after the opening paren) and
match the pattern tail after the closing paren. -/
def scopeTry (inner : List Char) (k : Nat) : Option (List Char × List Char × List Char) :=
  if (inner.get? k == some ')') && (inner.take k).all (· != '\n') && decide (1 ≤ k) then
    match tailMatch (inner.drop (k + 1)) with
    | some (bang, subj) => some (inner.take k, bang, subj)
    | none => none
  else none

/-- Greedy backtracking search for the scope group: candidate closing
positions are tried from the longest downwards, as a regex engine would. -/
def scopeSearch (inner : List Char) : Nat → Option (List Char × List Char × List Char)
  | 0 => none
  | k + 1 =>
    match scopeTry inner (k + 1) with
    | some r => some r
    | none => scopeSearch inner k

/-- The default header pattern `^(\w+)(?:\((.+)\))?(!)?: (.+)` applied at
the start of `cs`, returning the `Header` object built from the groups as
`stringToHeader` does: `type` is group 1 with the bang appended, `scope` is
group 2 (or null), `subject` is group 4. -/
def matchDefaultHeader (cs : List Char) : Option HeaderType :=
  let t := cs.takeWhile isWordChar
  if t.isEmpty then none
  else
    let rest := cs.drop t.length
    if rest.head? = some '(' then
      let inner := rest.drop 1
      match scopeSearch inner (inner.takeWhile (· != '\n')).length with
      | some (sc, bang, subj) =>
        some ⟨String.mk (t ++ bang), some (String.mk sc), String.mk subj⟩
      | none => none
    else
      match tailMatch rest with
      | some (bang, subj) => some ⟨String.mk (t ++ bang), none, String.mk subj⟩
      | none => none

/-- `stringToHeader` from `src/utils.ts`, for the default pattern (the
pattern has no cased literal, so the case-sensitivity flag cannot change
the match).  `none` models the thrown `TypeError`. -/
def stringToHeader (val : String) (_o : Options) : Option HeaderType :=
  matchDefaultHeader val.data

/-- `parseHeader` from `src/header.ts`: reject empty input, trim, delegate
to the grammar engine. -/
def parseHeader (s : String) (o : Options) : Option HeaderType :=
  if isNonEmptyString s then stringToHeader (String.mk (jsTrim s.data)) o
  else none

/-- `parseCommit` from `src/commit.ts`: the whole text goes to
`parseHeader`; the segments after the first blank-line boundary become
`body` and `footer` via `const [body = null, footer = null] = ...` followed
by `body?.trim()` / `footer?.trim()` — so a missing segment yields the
JavaScript value `undefined`, not `null`. -/
def parseCommit (s : String) (o : Options) : Option Commit :=
  if isNonEmptyString s then
    match parseHeader s o with
    | none => none
    | some h =>
      let segs := (splitNN s.data).drop 1
      let body : JVal := match segs.get? 0 with
        | some b => .jstr (String.mk (jsTrim b))
        | none => .undef
      let footer : JVal := match segs.get? 1 with
        | some f => .jstr (String.mk (jsTrim f))
        | none => .undef
      some { header := .structured h, body := body, footer := footer }
  else none

/-- `isHeaderType` from `src/utils.ts`: a raw `{ value }` object has no
string `type`/`subject` keys, so only the structured variant passes. -/
def isHeaderType : Header → Bool
  | .raw _ => false
  | .structured _ => true

/-- `checkHeader` from `src/header.ts`: shape check, then non-empty `type`
and `subject`, then a present non-null `scope` must be non-empty.  Returns
the header unmodified. -/
def checkHeader (h : Header) : Option HeaderType :=
  match h with
  | .raw _ => none
  | .structured ht =>
    if !isNonEmptyString ht.type then none
    else if !isNonEmptyString ht.subject then none
    else
      match ht.scope with
      | some sc => if isNonEmptyString sc then some ht else none
      | none => some ht

/-- `validateHeader`: the non-throwing wrapper around `checkHeader` (the
`Result` record collapses to `Option` in this embedding). -/
def validateHeader (h : Header) : Option HeaderType := checkHeader h

/-- `stringifyHeader` from `src/header.ts`: validate, then render
`type(scope): subject` (scope only when truthy) and trim. -/
def stringifyHeader (h : Header) : Option String :=
  match validateHeader h with
  | none => none
  | some ht =>
    let scopePart : List Char :=
      match ht.scope with
      | some sc => if sc.data.isEmpty then [] else '(' :: sc.data ++ [')']
      | none => []
    some (String.mk (jsTrim (ht.type.data ++ scopePart ++ ':' :: ' ' :: ht.subject.data)))

/-- `checkCommit` from `src/commit.ts`: validate the header, then build
`{ body: null, footer: null, ...commit, header }` — the `null` defaults
only fill keys that are missing; a key explicitly holding `undefined` is
copied by the spread and survives.  (The `typeof` guards on `body`/`footer`
cannot fire in this typed embedding, where both fields are always a
string, `null`, `undefined` or missing.) -/
def checkCommit (c : Commit) : Option Commit :=
  match validateHeader c.header with
  | none => none
  | some ht =>
    some { c with
      header := .structured ht,
      body := if c.body = .absent then .null else c.body,
      footer := if c.footer = .absent then .null else c.footer }

/-- `validateCommit`: non-throwing wrapper around `checkCommit`. -/
def validateCommit (c : Commit) : Option Commit := checkCommit c

/-- `normalizeCommit` from `src/utils.ts`: a `{ value }` header is replaced
by `stringToHeader(header.value, options)` — note: the value is NOT
trimmed first — and any other commit is returned unchanged. -/
def normalizeCommit (c : Commit) (o : Options) : Option Commit :=
  match c.header with
  | .raw v => (stringToHeader v o).map (fun ht => { c with header := .structured ht })
  | .structured _ => some c

/-- Case-insensitive substring test `new RegExp(alt1|alt2|..., "i").test t`
for alternations of lowercase literal words. -/
def jsTestAlt (t : String) (alts : List (List Char)) : Bool :=
  let h := t.data.map Char.toLower
  alts.any fun a => (List.range (h.length + 1)).any fun i => a.isPrefixOf (h.drop i)

/-- The anchored pattern `^BREAKING\s+CHANGES?:\s+` (case sensitive). -/
def breakingRe (l : List Char) : Bool :=
  if ("BREAKING".data).isPrefixOf l then
    let r1 := l.drop 8
    let ws1 := r1.takeWhile isJsWs
    if ws1.isEmpty then false
    else
      let r2 := r1.drop ws1.length
      if ("CHANGE".data).isPrefixOf r2 then
        let r3 := r2.drop 6
        let r4 := if r3.head? = some 'S' then r3.drop 1 else r3
        match r4 with
        | ':' :: r5 => !(r5.takeWhile isJsWs).isEmpty
        | _ => false
      else false
  else false

/-- `type.endsWith("!")`. -/
def endsWithBang (s : String) : Bool := s.data.getLast? == some '!'

/-- The boolean computed by `isBreakingChange` once the header is known to
be structured. -/
def isBreakingBool (ht : HeaderType) (body footer : String) : Bool :=
  endsWithBang ht.type ||
  jsTestAlt ht.type ["break".data, "breaking".data, "major".data] ||
  breakingRe ht.subject.data ||
  breakingRe body.data ||
  breakingRe footer.data

/-- `isBreakingChange` from `src/utils.ts`: throws on a non-structured
header, otherwise tests bang suffix, breaking-keyword type, and the
`BREAKING CHANGE:` prefix on subject, body and footer. -/
def isBreakingChange (c : Commit) : Option Bool :=
  match c.header with
  | .raw _ => none
  | .structured ht => some (isBreakingBool ht c.body.orEmpty c.footer.orEmpty)

/-- `incrementPlugin` from `src/plugins/increment.ts`: optionally
normalize, compute the breaking flag (throws on a raw header), then assign
`"patch"`, overwrite with `"minor"`, overwrite with `"major"`, and attach
the result to the ORIGINAL commit via `{ ...commit, increment }`. -/
def incrementPlugin (c : Commit) (o : Options) : Option Commit :=
  match (if o.normalize then normalizeCommit c o else some c) with
  | none => none
  | some cmt =>
    match isBreakingChange cmt with
    | none => none
    | some isB =>
      match cmt.header with
      | .raw _ => none
      | .structured ht =>
        let i0 : String := ""
        let i1 := if jsTestAlt ht.type ["fix".data, "bugfix".data, "patch".data] then "patch" else i0
        let i2 := if jsTestAlt ht.type ["feat".data, "feature".data, "minor".data] then "minor" else i1
        let i3 := if isB then "major" else i2
        some { c with increment := some i3 }

/-- The boundary class of the mentions pattern:
`[a-zA-Z0-9_＠!@#$%&*]` (characters that may NOT precede a mention). -/
def exclClass (c : Char) : Bool :=
  isWordChar c || c.toNat = 0xff20 || c = '!' || c = '@' || c = '#' ||
  c = '$' || c = '%' || c = '&' || c = '*'

/-- The mention-body class `[a-zA-Z0-9/_]` (dot-less mode, the one the
plugin uses). -/
def mentionChar (c : Char) : Bool := isWordChar c || c = '/'

/-- An `@` sigil (ASCII or fullwidth). -/
def sigil (c : Char) : Bool := c = '@' || c.toNat = 0xff20

/-- Is the character at position `p` a word character (out of range counts
as a non-word position)? -/
def isWordAt (cs : List Char) (p : Nat) : Bool :=
  match cs.get? p with
  | some c => isWordChar c
  | none => false

/-- The `\b` assertion at position `p`. -/
def wordBoundaryAt (cs : List Char) : Nat → Bool
  | 0 => isWordAt cs 0
  | p + 1 => isWordAt cs p != isWordAt cs (p + 1)

/-- The closing assertion `(?:\b(?!@|＠)|$)` of the mentions pattern at
position `p`. -/
def closeAssert (cs : List Char) (p : Nat) : Bool :=
  (wordBoundaryAt cs p &&
    !(match cs.get? p with | some c => sigil c | none => false)) ||
  p == cs.length

/-- Greedy backtracking over the `{1,15}` mention body: try length `L`,
then shorter, until the closing assertion holds.  `j` is the position of
the first body character; returns the end position and the body. -/
def mentionLenSearch (cs : List Char) (j : Nat) : Nat → Option (Nat × List Char)
  | 0 => none
  | L + 1 =>
    if closeAssert cs (j + (L + 1)) then some (j + (L + 1), (cs.drop j).take (L + 1))
    else mentionLenSearch cs j L

/-- The sigil-and-body part `(?:(?:@|＠)(?!\/))([a-zA-Z0-9/_]{1,15})` of
the mentions pattern starting at position `j`. -/
def tryMentionBody (cs : List Char) (j : Nat) : Option (Nat × List Char) :=
  match cs.get? j with
  | some c =>
    if sigil c && !(cs.get? (j + 1) == some '/') then
      let run := ((cs.drop (j + 1)).takeWhile mentionChar).length
      mentionLenSearch cs (j + 1) (min run 15)
    else none
  | none => none

/-- A full attempt of the mentions pattern anchored at position `i`: the
leading alternation `(?:^|[^a-zA-Z0-9_＠!@#$%&*])` either matches the start
of the string (consuming nothing) or consumes one non-excluded character.
Returns (match start, match end, mention group). -/
def matchMentionAt (cs : List Char) (i : Nat) : Option (Nat × Nat × List Char) :=
  if i = 0 then
    match tryMentionBody cs 0 with
    | some (e, men) => some (0, e, men)
    | none =>
      match cs.get? 0 with
      | some c =>
        if !exclClass c then (tryMentionBody cs 1).map (fun r => (0, r.1, r.2))
        else none
      | none => none
  else
    match cs.get? i with
    | some c =>
      if !exclClass c then (tryMentionBody cs (i + 1)).map (fun r => (i, r.1, r.2))
      else none
    | none => none

/-- The `while ((m = regex.exec(str)))` loop of `getMentions`: scan for the
next match position, record `{ handle: m[0].trim(), mention: m[1],
index: m.index }`, and resume after the match.  `fuel` only bounds the
recursion; `cs.length + 2` is always enough. -/
def scanMentions (cs : List Char) : Nat → Nat → List Mention
  | 0, _ => []
  | fuel + 1, i =>
    if i > cs.length then []
    else
      match matchMentionAt cs i with
      | some (st, e, men) =>
        ⟨st, String.mk (jsTrim ((cs.drop st).take (e - st))), String.mk men⟩ ::
          scanMentions cs fuel e
      | none => scanMentions cs fuel (i + 1)

/-- `getMentions` from `src/plugins/mention.ts` (dot-less mode). -/
def getMentions (s : String) : List Mention :=
  scanMentions s.data (s.data.length + 2) 0

/-- `mentionsPlugin` from `src/plugins/mention.ts`: optionally normalize,
fail on a raw header, scan subject, body and footer in that order, and
attach the concatenated result to the ORIGINAL commit via
`{ ...commit, mentions }`. -/
def mentionsPlugin (c : Commit) (o : Options) : Option Commit :=
  match (if o.normalize then normalizeCommit c o else some c) with
  | none => none
  | some cmt =>
    match cmt.header with
    | .raw _ => none
    | .structured ht =>
      let ms := getMentions ht.subject ++ getMentions cmt.body.orEmpty ++
        getMentions cmt.footer.orEmpty
      some { c with mentions := some ms }

/-- A commit-like batch element: a bare commit string or a commit object. -/
inductive CommitLike where
  | str (s : String)
  | obj (c : Commit)
deriving DecidableEq, Repr

/-- The batch input of `applyPlugins`: one element or an array. -/
inductive CommitsInput where
  | one (x : CommitLike)
  | many (l : List CommitLike)

/-- The coercion inside `extendCommitCb`: a string becomes
`{ header: { value: string } }` (no other key), an object is used as is. -/
def toCommitObject : CommitLike → Commit
  | .str s => { header := .raw s }
  | .obj c => c

/-- A plugin function `(commit, options) => Commit` (possibly throwing). -/
def PluginFn : Type := Commit → Options → Option Commit

/-- The per-step merge of `applyPlugins`: `Object.assign(draft, res)`
copies every key the plugin result owns onto the accumulator (`header` is
always owned; `body`/`footer` are owned unless missing; the derived fields
are owned when set; extra keys override by name). -/
def mergeCommit (acc res : Commit) : Commit :=
  { header := res.header,
    body := if res.body = .absent then acc.body else res.body,
    footer := if res.footer = .absent then acc.footer else res.footer,
    increment := match res.increment with | some v => some v | none => acc.increment,
    isBreaking := match res.isBreaking with | some v => some v | none => acc.isBreaking,
    mentions := match res.mentions with | some v => some v | none => acc.mentions,
    extras := res.extras ++
      acc.extras.filter (fun kv => res.extras.all (fun kv2 => kv2.1 ≠ kv.1)) }

/-- `extendCommitCb` from `src/index.ts`: coerce the element, then fold
the plugin list left-to-right, merging each result over the accumulator. -/
def extendCommitCb (plugins : List PluginFn) (o : Options) (x : CommitLike) : Option Commit :=
  plugins.foldlM (fun acc p => (p acc o).map (fun res => mergeCommit acc res))
    (toCommitObject x)

/-- `applyPlugins` from `src/index.ts`: an array input is reduced
element-wise with concatenation, a single input is wrapped into a
one-element array. -/
def applyPlugins (plugins : List PluginFn) (commits : CommitsInput) (o : Options) :
    Option (List Commit) :=
  match commits with
  | .many l =>
    l.foldlM (fun racc x => (extendCommitCb plugins o x).map (fun c => racc ++ [c])) []
  | .one x => (extendCommitCb plugins o x).map (fun c => [c])

/-- A field value that is a string or `null` (the invariant the spec
asserts for checked commits). -/
def strOrNull (v : JVal) : Prop := v = .null ∨ ∃ s, v = .jstr s

/-! ### Generic list lemmas used by the claim proofs -/

theorem foldlM_option_some {α β : Type} (f : β → α → β) :
    ∀ (l : List α) (b : β),
      (l.foldlM (fun acc a => some (f acc a)) b) = some (l.foldl f b) := by
  intro l
  induction l with
  | nil => intro b; rfl
  | cons a l ih => intro b; simpa [List.foldlM] using ih (f b a)

theorem foldl_append_singleton {α β : Type} (g : α → β) :
    ∀ (l : List α) (acc : List β),
      l.foldl (fun r x => r ++ [g x]) acc = acc ++ l.map g := by
  intro l
  induction l with
  | nil => intro acc; simp
  | cons a l ih => intro acc; simp [ih]

theorem takeWhile_append_stop (p : Char → Bool) (A : List Char) {R : List Char}
    (hR : R.takeWhile p = []) : (A ++ R).takeWhile p = A.takeWhile p := by
  induction A with
  | nil => simpa using hR
  | cons a A ih =>
    by_cases h : p a <;> simp [List.takeWhile_cons, h, ih]

theorem takeWhile_eq_self_of_all (p : Char → Bool) (A : List Char)
    (h : ∀ c ∈ A, p c = true) : A.takeWhile p = A := by
  induction A with
  | nil => rfl
  | cons a A ih =>
    simp [List.takeWhile_cons, h a (by simp), ih fun c hc => h c (by simp [hc])]

theorem modifyHead_ne_nil {α : Type} (f : α → α) {l : List α} (h : l ≠ []) :
    l.modifyHead f ≠ [] := by
  cases l with
  | nil => exact absurd rfl h
  | cons a l => simp [List.modifyHead]

theorem splitNN_cons₂ (c d : Char) (r : List Char) :
    splitNN (c :: d :: r) = if c = '\n' ∧ d = '\n' then [] :: splitNN r
      else (splitNN (d :: r)).modifyHead (c :: ·) := by
  rfl

theorem splitNN_ne_nil : ∀ l : List Char, splitNN l ≠ [] := by
  intro l
  induction l using splitNN.induct with
  | case1 => simp [splitNN]
  | case2 c => simp [splitNN]
  | case3 c d r hcd ih => rw [splitNN_cons₂, if_pos hcd]; simp
  | case4 c d r hcd ih =>
    rw [splitNN_cons₂, if_neg hcd]
    exact modifyHead_ne_nil _ ih

theorem splitNN_append {h : List Char} (rr : List Char)
    (hone : splitNN h = [h]) (hlast : h.getLast? ≠ some '\n') :
    splitNN (h ++ '\n' :: '\n' :: rr) = h :: splitNN rr := by
  induction h using splitNN.induct with
  | case1 =>
    show splitNN ('\n' :: '\n' :: rr) = [] :: splitNN rr
    rw [splitNN_cons₂, if_pos ⟨rfl, rfl⟩]
  | case2 c =>
    have hc : ¬(c = '\n' ∧ '\n' = '\n') := by
      intro hcc
      exact hlast (by simp [hcc.1])
    show splitNN (c :: '\n' :: '\n' :: rr) = [c] :: splitNN rr
    rw [splitNN_cons₂, if_neg hc, splitNN_cons₂, if_pos ⟨rfl, rfl⟩]
    rfl
  | case3 c d r hcd ih =>
    exfalso
    rw [splitNN_cons₂, if_pos hcd] at hone
    simp at hone
  | case4 c d r hcd ih =>
    rw [splitNN_cons₂, if_neg hcd] at hone
    have hne := splitNN_ne_nil (d :: r)
    rcases hx : splitNN (d :: r) with _ | ⟨x, xs⟩
    · exact absurd hx hne
    · rw [hx] at hone
      simp only [List.modifyHead] at hone
      have hx1 : x = d :: r ∧ xs = [] := by
        constructor
        · have := congrArg (fun l => List.head? l) hone
          simpa using this
        · have := congrArg (fun l => List.tail l) hone
          simpa using this
      have hone' : splitNN (d :: r) = [d :: r] := by rw [hx, hx1.1, hx1.2]
      have hlast' : (d :: r).getLast? ≠ some '\n' := by
        intro hl
        exact hlast (by simpa [List.getLast?_cons_cons] using hl)
      have goal' := ih hone' hlast'
      show splitNN (c :: d :: (r ++ '\n' :: '\n' :: rr)) = (c :: d :: r) :: splitNN rr
      rw [splitNN_cons₂, if_neg hcd]
      have hsh : d :: (r ++ '\n' :: '\n' :: rr) = (d :: r) ++ '\n' :: '\n' :: rr := by simp
      rw [hsh, goal', List.modifyHead]

theorem splitNN_joinNN : ∀ (segs : List (List Char)), segs ≠ [] →
    (∀ seg ∈ segs, splitNN seg = [seg]) →
    (∀ seg ∈ segs.dropLast, seg.getLast? ≠ some '\n') →
    splitNN (joinNN segs) = segs := by
  intro segs
  induction segs with
  | nil => intro h _ _; exact absurd rfl h
  | cons x xs ih =>
    intro _ hall hlast
    rcases xs with _ | ⟨y, ys⟩
    · exact hall x (by simp)
    · have hx : x.getLast? ≠ some '\n' := by
        apply hlast x
        rw [List.dropLast_cons₂]
        simp
      show splitNN (x ++ '\n' :: '\n' :: joinNN (y :: ys)) = x :: y :: ys
      rw [splitNN_append (joinNN (y :: ys)) (hall x (by simp)) hx]
      rw [ih (by simp) (fun seg hs => hall seg (List.mem_cons_of_mem _ hs))
        (fun seg hs => hlast seg (by rw [List.dropLast_cons₂]; exact List.mem_cons_of_mem _ hs))]

theorem data_mk (l : List Char) : (String.mk l).data = l := rfl

/-! ### First-line invariance of the default header matcher

The default pattern contains no construct that can cross a newline, so
matching `F ++ R` — where `F` is newline-free and `R` is empty or starts
with a newline — is the same as matching `F` alone. -/

theorem head?_append_test {R : List Char} (hR : R = [] ∨ ∃ R', R = '\n' :: R')
    {B : List Char} {x : Char} (hx : x ≠ '\n') :
    ((B ++ R).head? = some x) ↔ (B.head? = some x) := by
  rcases B with _ | ⟨b, B'⟩
  · rcases hR with rfl | ⟨R', rfl⟩
    · simp
    · simp only [List.nil_append, List.head?_cons, List.head?_nil]
      constructor
      · intro hcon
        exact absurd (Option.some.inj hcon).symm hx
      · intro hcon
        exact Option.noConfusion hcon
  · simp

theorem tailCore_append {B R : List Char} (hB : ∀ c ∈ B, c ≠ '\n')
    (hR : R = [] ∨ ∃ R', R = '\n' :: R') : tailCore (B ++ R) = tailCore B := by
  by_cases hc : B.head? = some ':' ∧ (B.drop 1).head? = some ' '
  · obtain ⟨hc1, hc2⟩ := hc
    rcases B with _ | ⟨b, B₂⟩
    · exact absurd hc1 (by simp)
    · have hb : b = ':' := by simpa using hc1
      subst hb
      rcases B₂ with _ | ⟨b2, B₃⟩
      · exact absurd hc2 (by simp)
      · have hb2 : b2 = ' ' := by simpa using hc2
        subst hb2
        show tailCore (':' :: ' ' :: (B₃ ++ R)) = tailCore (':' :: ' ' :: B₃)
        have hB₃ : ∀ c ∈ B₃, (c != '\n') = true := by
          intro c hcm
          simpa [bne_iff_ne] using hB c (by simp [hcm])
        have hstop : R.takeWhile (· != '\n') = [] := by
          rcases hR with rfl | ⟨R', rfl⟩
          · rfl
          · simp [List.takeWhile_cons]
        have hsubj : (B₃ ++ R).takeWhile (· != '\n') = B₃ := by
          rw [takeWhile_append_stop _ _ hstop]
          exact takeWhile_eq_self_of_all _ _ hB₃
        simp only [tailCore, List.head?_cons, List.drop_succ_cons, List.drop_zero,
          List.drop_nil, hsubj]
        rw [takeWhile_eq_self_of_all _ _ hB₃]
  · have hc' : ¬((B ++ R).head? = some ':' ∧ ((B ++ R).drop 1).head? = some ' ') := by
      intro ⟨h1, h2⟩
      apply hc
      have h1' : B.head? = some ':' :=
        (head?_append_test hR (by decide)).mp h1
      refine ⟨h1', ?_⟩
      rcases B with _ | ⟨b, B₂⟩
      · exact absurd h1' (by simp)
      · have h2' : ((B₂ ++ R)).head? = some ' ' := by simpa using h2
        simpa using (head?_append_test hR (by decide)).mp h2'
    rw [tailCore, if_neg hc', tailCore, if_neg hc]

theorem tailMatch_append {A R : List Char} (hA : ∀ c ∈ A, c ≠ '\n')
    (hR : R = [] ∨ ∃ R', R = '\n' :: R') : tailMatch (A ++ R) = tailMatch A := by
  have hb : ((A ++ R).head? = some '!') ↔ (A.head? = some '!') :=
    head?_append_test hR (by decide)
  by_cases hbang : A.head? = some '!'
  · rcases A with _ | ⟨a, A'⟩
    · exact absurd hbang (by simp)
    · have ha : a = '!' := by simpa using hbang
      subst ha
      have hA' : ∀ c ∈ A', c ≠ '\n' := fun c hcm => hA c (by simp [hcm])
      show (tailCore (A' ++ R)).map (fun subj => (['!'], subj)) =
        (tailCore A').map (fun subj => (['!'], subj))
      rw [tailCore_append hA' hR]
  · have hbang' : ¬((A ++ R).head? = some '!') := fun hcon => hbang (hb.mp hcon)
    simp only [tailMatch, if_neg hbang, if_neg hbang']
    show (tailCore (A ++ R)).map (fun subj => (([] : List Char), subj)) =
      (tailCore A).map (fun subj => (([] : List Char), subj))
    rw [tailCore_append hA hR]

theorem scopeSearch_congr {A B : List Char} (n : Nat)
    (h : ∀ k, 1 ≤ k → k ≤ n → scopeTry A k = scopeTry B k) :
    scopeSearch A n = scopeSearch B n := by
  induction n with
  | zero => rfl
  | succ n ih =>
    simp only [scopeSearch]
    rw [h (n + 1) (by omega) (le_refl _)]
    rcases hx : scopeTry B (n + 1) with _ | r <;> simp only [hx]
    exact ih (fun k h1 h2 => h k h1 (by omega))

theorem scopeTry_append {B R : List Char} (hB : ∀ c ∈ B, c ≠ '\n')
    (hR : R = [] ∨ ∃ R', R = '\n' :: R') (k : Nat) (hk : k ≤ B.length) :
    scopeTry (B ++ R) k = scopeTry B k := by
  rcases Nat.lt_or_ge k B.length with hlt | hge
  · have hget : (B ++ R).get? k = B.get? k := List.get?_append hlt
    have htake : (B ++ R).take k = B.take k := List.take_append_of_le_length (le_of_lt hlt)
    have hdropk : (B ++ R).drop (k + 1) = B.drop (k + 1) ++ R :=
      List.drop_append_of_le_length hlt
    simp only [scopeTry, hget, htake, hdropk]
    rw [tailMatch_append (fun c hcm => hB c (List.drop_subset _ _ hcm)) hR]
  · have heq : k = B.length := le_antisymm hk hge
    subst heq
    have hgB : B.get? B.length = none := by
      simp [List.get?_eq_getElem?]
    have hgL : (B ++ R).get? B.length = R.get? 0 := by
      simp [List.get?_eq_getElem?, List.getElem?_append_right (le_refl B.length)]
    have hcl : ((B ++ R).get? B.length == some ')') = false := by
      rw [hgL]
      rcases hR with rfl | ⟨R', rfl⟩
      · rfl
      · rfl
    have hcr : (B.get? B.length == some ')') = false := by rw [hgB]; rfl
    simp only [scopeTry, hcl, hcr, Bool.false_and, Bool.false_eq_true, if_false]

theorem matchDefaultHeader_append {F R : List Char}
    (hF : ∀ c ∈ F, c ≠ '\n') (hR : R = [] ∨ ∃ R', R = '\n' :: R') :
    matchDefaultHeader (F ++ R) = matchDefaultHeader F := by
  have hRw : R.takeWhile isWordChar = [] := by
    rcases hR with rfl | ⟨R', rfl⟩
    · rfl
    · simp [List.takeWhile_cons, show isWordChar '\n' = false from rfl]
  have ht : (F ++ R).takeWhile isWordChar = F.takeWhile isWordChar :=
    takeWhile_append_stop _ _ hRw
  have hpfx := List.takeWhile_prefix (p := isWordChar) (l := F)
  have htle : (F.takeWhile isWordChar).length ≤ F.length := hpfx.length_le
  have hdrop : (F ++ R).drop (F.takeWhile isWordChar).length =
      F.drop (F.takeWhile isWordChar).length ++ R := List.drop_append_of_le_length htle
  have hF' : ∀ c ∈ F.drop (F.takeWhile isWordChar).length, c ≠ '\n' :=
    fun c hcm => hF c (List.drop_subset _ _ hcm)
  simp only [matchDefaultHeader, ht, hdrop]
  rcases hte : (F.takeWhile isWordChar).isEmpty with _ | _
  · simp only [Bool.false_eq_true, if_false]
    have hpariff : (((F.drop (F.takeWhile isWordChar).length) ++ R).head? = some '(') ↔
        ((F.drop (F.takeWhile isWordChar).length).head? = some '(') :=
      head?_append_test hR (by decide)
    by_cases hpar : (F.drop (F.takeWhile isWordChar).length).head? = some '('
    · rcases hF'eq : F.drop (F.takeWhile isWordChar).length with _ | ⟨x, F₂⟩
      · rw [hF'eq] at hpar
        exact absurd hpar (by simp)
      · rw [hF'eq] at hpar hF'
        have hx : x = '(' := by simpa using hpar
        subst hx
        rw [if_pos (show (('(' :: F₂ ++ R)).head? = some '(' from rfl),
          if_pos (show (('(' :: F₂ : List Char)).head? = some '(' from rfl)]
        simp only [List.cons_append, List.drop_succ_cons, List.drop_zero]
        have hF₂ : ∀ c ∈ F₂, c ≠ '\n' := fun c hcm => hF' c (by simp [hcm])
        have hF₂b : ∀ c ∈ F₂, (c != '\n') = true := by
          intro c hcm
          simpa [bne_iff_ne] using hF₂ c hcm
        have hstop : R.takeWhile (· != '\n') = [] := by
          rcases hR with rfl | ⟨R', rfl⟩
          · rfl
          · simp [List.takeWhile_cons]
        have hsubj : (F₂ ++ R).takeWhile (· != '\n') = F₂ := by
          rw [takeWhile_append_stop _ _ hstop]
          exact takeWhile_eq_self_of_all _ _ hF₂b
        rw [hsubj, takeWhile_eq_self_of_all _ _ hF₂b]
        rw [scopeSearch_congr F₂.length
          (fun k _ h2 => scopeTry_append hF₂ hR k h2)]
    · have hpar' : ¬(((F.drop (F.takeWhile isWordChar).length) ++ R).head? = some '(') :=
        fun hcon => hpar (hpariff.mp hcon)
      rw [if_neg hpar', if_neg hpar, tailMatch_append hF' hR]
  · simp

theorem matchDefaultHeader_firstLine (cs : List Char) :
    matchDefaultHeader cs = matchDefaultHeader (cs.takeWhile (· != '\n')) := by
  have hsplit := List.takeWhile_append_dropWhile (p := (· != '\n')) (l := cs)
  have hF : ∀ c ∈ cs.takeWhile (· != '\n'), c ≠ '\n' := by
    intro c hcm
    have := List.mem_takeWhile_imp hcm
    simpa [bne_iff_ne] using this
  have hR : cs.dropWhile (· != '\n') = [] ∨
      ∃ R', cs.dropWhile (· != '\n') = '\n' :: R' := by
    rcases hd : cs.dropWhile (· != '\n') with _ | ⟨x, r⟩
    · exact Or.inl rfl
    · right
      refine ⟨r, ?_⟩
      have hx : ((· != '\n') x) = false := by
        have := List.head?_dropWhile_not (p := (· != '\n')) (l := cs)
        rw [hd] at this
        simpa using this
      have : x = '\n' := by
        by_contra hne
        simp [bne_iff_ne, hne] at hx
      rw [this]
  calc matchDefaultHeader cs
      = matchDefaultHeader (cs.takeWhile (· != '\n') ++ cs.dropWhile (· != '\n')) := by
        rw [hsplit]
    _ = matchDefaultHeader (cs.takeWhile (· != '\n')) := matchDefaultHeader_append hF hR

/-! ### Inversion of the default header matcher

These lemmas recover, from a successful match, the exact decomposition of
the input into the matched groups; they drive the round-trip proof. -/

theorem tailCore_inv {v subj : List Char} (h : tailCore v = some subj) :
    ∃ w, v = ':' :: ' ' :: w ∧ subj = w.takeWhile (· != '\n') ∧ subj ≠ [] := by
  unfold tailCore at h
  by_cases hc : v.head? = some ':' ∧ (v.drop 1).head? = some ' '
  · rw [if_pos hc] at h
    obtain ⟨h1, h2⟩ := hc
    rcases v with _ | ⟨a, v'⟩
    · exact absurd h1 (by simp)
    · have ha : a = ':' := by simpa using h1
      subst ha
      rcases v' with _ | ⟨b, w⟩
      · exact absurd h2 (by simp)
      · have hb : b = ' ' := by simpa using h2
        subst hb
        simp only [List.drop_succ_cons, List.drop_zero] at h
        rcases hie : (w.takeWhile (· != '\n')).isEmpty with _ | _
        · rw [hie] at h
          simp only [Bool.false_eq_true, if_false, Option.some.injEq] at h
          refine ⟨w, rfl, h.symm, ?_⟩
          intro hnil
          rw [h, hnil] at hie
          simp at hie
        · rw [hie] at h
          exact absurd h (by simp)
  · rw [if_neg hc] at h
    exact absurd h (by simp)

theorem tailMatch_inv {u bang subj : List Char} (h : tailMatch u = some (bang, subj)) :
    ∃ w, u = bang ++ ':' :: ' ' :: w ∧ subj = w.takeWhile (· != '\n') ∧ subj ≠ [] ∧
      (bang = [] ∨ bang = ['!']) := by
  unfold tailMatch at h
  by_cases hb : u.head? = some '!'
  · rw [if_pos hb] at h
    rw [Option.map_eq_some'] at h
    obtain ⟨subj0, hc, heq⟩ := h
    have hbg : bang = ['!'] := (congrArg Prod.fst heq).symm
    have hsj : subj = subj0 := (congrArg Prod.snd heq).symm
    rcases u with _ | ⟨a, u'⟩
    · exact absurd hb (by simp)
    · have ha : a = '!' := by simpa using hb
      subst ha
      have hc' : tailCore u' = some subj0 := by simpa using hc
      obtain ⟨w, hw, hs, hne⟩ := tailCore_inv hc'
      refine ⟨w, ?_, ?_, ?_, Or.inr hbg⟩
      · rw [hbg, hw]
        rfl
      · rw [hsj, hs]
      · rw [hsj]
        exact hne
  · rw [if_neg hb] at h
    rw [Option.map_eq_some'] at h
    obtain ⟨subj0, hc, heq⟩ := h
    have hbg : bang = [] := (congrArg Prod.fst heq).symm
    have hsj : subj = subj0 := (congrArg Prod.snd heq).symm
    have hc' : tailCore u = some subj0 := by simpa using hc
    obtain ⟨w, hw, hs, hne⟩ := tailCore_inv hc'
    refine ⟨w, ?_, ?_, ?_, Or.inl hbg⟩
    · rw [hbg, hw]
      rfl
    · rw [hsj, hs]
    · rw [hsj]
      exact hne

theorem scopeSearch_inv {inner : List Char} {r : List Char × List Char × List Char} :
    ∀ {n : Nat}, scopeSearch inner n = some r →
      ∃ k, 1 ≤ k ∧ k ≤ n ∧ scopeTry inner k = some r := by
  intro n
  induction n with
  | zero => intro h; exact absurd h (by simp [scopeSearch])
  | succ n ih =>
    intro h
    simp only [scopeSearch] at h
    rcases hx : scopeTry inner (n + 1) with _ | r'
    · rw [hx] at h
      simp only [] at h
      obtain ⟨k, h1, h2, h3⟩ := ih h
      exact ⟨k, h1, by omega, h3⟩
    · rw [hx] at h
      simp only [Option.some.injEq] at h
      subst h
      exact ⟨n + 1, by omega, le_refl _, hx⟩

theorem scopeTry_inv {inner : List Char} {k : Nat} {sc bang subj : List Char}
    (h : scopeTry inner k = some (sc, bang, subj)) :
    1 ≤ k ∧ inner.get? k = some ')' ∧ sc = inner.take k ∧
      tailMatch (inner.drop (k + 1)) = some (bang, subj) := by
  unfold scopeTry at h
  rcases hcond : ((inner.get? k == some ')') && (inner.take k).all (· != '\n') &&
      decide (1 ≤ k)) with _ | _
  · rw [hcond] at h
    exact absurd h (by simp)
  · rw [hcond] at h
    simp only [Bool.and_eq_true, beq_iff_eq, decide_eq_true_eq] at hcond
    obtain ⟨⟨hg, _⟩, hk⟩ := hcond
    rcases htm : tailMatch (inner.drop (k + 1)) with _ | ⟨bang0, subj0⟩
    · rw [htm] at h
      exact absurd h (by simp)
    · rw [htm] at h
      have h' : inner.take k = sc ∧ bang0 = bang ∧ subj0 = subj := by
        simpa using h
      obtain ⟨hsc, hbang2, hsubj2⟩ := h'
      exact ⟨hk, hg, hsc.symm, by rw [hbang2, hsubj2]⟩

theorem isEmpty_mk_append_false {t rest : List Char} (ht : t ≠ []) :
    (String.mk (t ++ rest)).data.isEmpty = false := by
  rcases t with _ | ⟨a, t'⟩
  · exact absurd rfl ht
  · rfl

/-- C3 (amended): the round-trip law `stringifyHeader (parseHeader s) = s`
holds for every single-line string `s` with no surrounding whitespace that
matches the default grammar, PROVIDED the parsed header does not carry
both a scope and the trailing `!` marker; when it carries both, the
stringifier re-renders the bang after the type and before the scope, so
the round trip fails (see the counterexample). -/
theorem claim_C3_theorem :
    ∀ (s : String) (o : Options) (ht : HeaderType),
      parseHeader s o = some ht →
      jsTrim s.data = s.data →
      (∀ ch ∈ s.data, ch ≠ '\n') →
      (ht.scope = none ∨ endsWithBang ht.type = false) →
      stringifyHeader (Header.structured ht) = some s := by
  intro s o ht hph htrim hline hcond
  rcases hne : isNonEmptyString s with _ | _
  · simp [parseHeader, hne] at hph
  · have hmd : matchDefaultHeader s.data = some ht := by
      rw [← htrim]
      simpa [parseHeader, hne, stringToHeader] using hph
    obtain ⟨rest, hrest⟩ := List.takeWhile_prefix (p := isWordChar) (l := s.data)
    have hdrop : s.data.drop (s.data.takeWhile isWordChar).length = rest := by
      calc s.data.drop (s.data.takeWhile isWordChar).length
          = (s.data.takeWhile isWordChar ++ rest).drop
              (s.data.takeWhile isWordChar).length := by rw [hrest]
        _ = rest := List.drop_left _ _
    simp only [matchDefaultHeader] at hmd
    rcases hte : (s.data.takeWhile isWordChar).isEmpty with _ | _
    case false =>
      rw [hte] at hmd
      simp only [Bool.false_eq_true, if_false] at hmd
      rw [hdrop] at hmd
      have htne : s.data.takeWhile isWordChar ≠ [] := List.isEmpty_eq_false.mp hte
      by_cases hpar : rest.head? = some '('
      · -- scope branch
        rw [if_pos hpar] at hmd
        rcases rest with _ | ⟨x, inner⟩
        · exact absurd hpar (by simp)
        · have hx : x = '(' := by simpa using hpar
          subst hx
          simp only [List.drop_succ_cons, List.drop_zero] at hmd
          rcases hss : scopeSearch inner (inner.takeWhile (· != '\n')).length
              with _ | ⟨sc, bang, subj⟩
          · rw [hss] at hmd
            exact absurd hmd (by simp)
          · rw [hss] at hmd
            simp only [Option.some.injEq] at hmd
            obtain ⟨k, hk1, _, htry⟩ := scopeSearch_inv hss
            obtain ⟨_, hget, hsc, htm⟩ := scopeTry_inv htry
            subst hsc
            obtain ⟨w, hwdec, hsubj, hsubjne, hbangor⟩ := tailMatch_inv htm
            obtain ⟨hkl, hgetk⟩ := List.get?_eq_some.mp hget
            have hinner : inner = inner.take k ++ ')' :: inner.drop (k + 1) := by
              conv_lhs => rw [← List.take_append_drop k inner]
              rw [List.drop_eq_getElem_cons hkl]
              have hg' : inner[k]? = some ')' := by
                rw [← List.get?_eq_getElem?]
                exact hget
              have hgk : inner[k] = ')' := by
                have h2 := List.getElem?_eq_getElem hkl (l := inner)
                rw [hg'] at h2
                exact (Option.some.inj h2).symm
              rw [hgk]
            subst hmd
            -- the scope is present, so the claim hypothesis forbids the bang
            have hbangnil : bang = [] := by
              rcases hbangor with rfl | rfl
              · rfl
              · exfalso
                rcases hcond with hcon | hcon
                · exact Option.noConfusion hcon
                · have : endsWithBang (String.mk
                      (s.data.takeWhile isWordChar ++ ['!'])) = true := by
                    simp [endsWithBang, data_mk, List.getLast?_concat]
                  rw [this] at hcon
                  exact Bool.noConfusion hcon
            subst hbangnil
            -- single line gives subj = w
            have hwmem : ∀ c ∈ w, (c != '\n') = true := by
              intro c hcm
              rw [bne_iff_ne]
              apply hline
              rw [← hrest, hinner, hwdec]
              simp [hcm]
            have hsubjw : subj = w := by
              rw [hsubj]
              exact takeWhile_eq_self_of_all _ _ hwmem
            -- scope is non-empty
            have hscne : inner.take k ≠ [] := by
              have hlen : (inner.take k).length = k := by
                rw [List.length_take]
                omega
              intro h0
              rw [h0] at hlen
              simp at hlen
              omega
            -- evaluate the stringifier
            have hch : checkHeader (Header.structured
                ⟨String.mk (s.data.takeWhile isWordChar ++ []),
                  some (String.mk (inner.take k)), String.mk subj⟩) =
                some ⟨String.mk (s.data.takeWhile isWordChar ++ []),
                  some (String.mk (inner.take k)), String.mk subj⟩ := by
              simp only [checkHeader, isNonEmptyString, data_mk,
                isEmpty_mk_append_false htne]
              have h1 : subj.isEmpty = false := List.isEmpty_eq_false.mpr hsubjne
              have h2 : (inner.take k).isEmpty = false := List.isEmpty_eq_false.mpr hscne
              simp [h1, h2]
            rw [stringifyHeader, validateHeader, hch]
            simp only [data_mk, List.isEmpty_eq_false.mpr hscne, Bool.false_eq_true,
              if_false]
            have hsd : s.data = s.data.takeWhile isWordChar ++
                '(' :: (inner.take k ++ ')' :: ':' :: ' ' :: w) := by
              conv_lhs => rw [← hrest, hinner, hwdec]
              simp
            have hlist : (s.data.takeWhile isWordChar ++ []) ++
                ('(' :: inner.take k ++ [')']) ++ ':' :: ' ' :: subj = s.data := by
              rw [hsubjw]
              conv_rhs => rw [hsd]
              simp
            rw [hlist, htrim]
      · -- no-scope branch
        rw [if_neg hpar] at hmd
        rcases htm0 : tailMatch rest with _ | ⟨bang, subj⟩
        · rw [htm0] at hmd
          exact absurd hmd (by simp)
        · rw [htm0] at hmd
          simp only [Option.some.injEq] at hmd
          obtain ⟨w, hwdec, hsubj, hsubjne, hbangor⟩ := tailMatch_inv htm0
          subst hmd
          have hwmem : ∀ c ∈ w, (c != '\n') = true := by
            intro c hcm
            rw [bne_iff_ne]
            apply hline
            rw [← hrest, hwdec]
            simp [hcm]
          have hsubjw : subj = w := by
            rw [hsubj]
            exact takeWhile_eq_self_of_all _ _ hwmem
          have hch : checkHeader (Header.structured
              ⟨String.mk (s.data.takeWhile isWordChar ++ bang), none, String.mk subj⟩) =
              some ⟨String.mk (s.data.takeWhile isWordChar ++ bang), none,
                String.mk subj⟩ := by
            simp only [checkHeader, isNonEmptyString, data_mk,
              isEmpty_mk_append_false htne]
            have h1 : subj.isEmpty = false := List.isEmpty_eq_false.mpr hsubjne
            simp [h1]
          rw [stringifyHeader, validateHeader, hch]
          simp only [data_mk]
          have hsd : s.data = s.data.takeWhile isWordChar ++
              (bang ++ ':' :: ' ' :: w) := by
            conv_lhs => rw [← hrest, hwdec]
          have hlist : (s.data.takeWhile isWordChar ++ bang) ++ [] ++
              ':' :: ' ' :: subj = s.data := by
            rw [hsubjw]
            conv_rhs => rw [hsd]
            simp
          rw [hlist, htrim]
    case true =>
      rw [hte] at hmd
      simp at hmd

/-! ### Claim theorems -/

/-- C7 (counterexample): the raw header value `"fix: ok"` satisfies the
default header grammar, yet `stringifyHeader` on the `Raw` variant fails —
refuting the claim that a `Raw` header with a grammar-valid value
stringifies successfully. -/
theorem claim_C7_counterexample :
    stringToHeader "fix: ok" {} = some ⟨"fix", none, "ok"⟩ ∧
    stringifyHeader (Header.raw "fix: ok") = none := by
  exact ⟨by decide, rfl⟩

/-- C7 (amended): `stringifyHeader` fails on EVERY `Raw`-variant header,
whether or not the raw value satisfies the header grammar: the structural
check `isHeaderType` rejects the `{ value }` shape before any grammar
validation could happen. -/
theorem claim_C7_theorem : ∀ v : String, stringifyHeader (Header.raw v) = none := by
  intro v
  rfl

/-- C5 (counterexample): the mentions plugin on the literal body
`"foo @tunnckoCore and @bar, right?"` does NOT produce the claimed indices
4 and 21: the regex match begins at the boundary character preceding the
sigil, so `m.index` is 3 and 20. -/
theorem claim_C5_counterexample :
    (some { header := Header.structured ⟨"fix", none, "bar"⟩,
            body := JVal.jstr "foo @tunnckoCore and @bar, right?",
            mentions := some [⟨4, "@tunnckoCore", "tunnckoCore"⟩, ⟨21, "@bar", "bar"⟩] }
      : Option Commit) ≠
    mentionsPlugin { header := Header.structured ⟨"fix", none, "bar"⟩,
                     body := JVal.jstr "foo @tunnckoCore and @bar, right?" } {} := by
  decide

/-- C5 (amended): the mentions plugin on the commit with body
`"foo @tunnckoCore and @bar, right?"` produces the ordered mentions with
handles `@tunnckoCore` and `@bar` at indices 3 and 20 — the offsets of the
match starts, each match including the preceding boundary character. -/
theorem claim_C5_theorem :
    mentionsPlugin { header := Header.structured ⟨"fix", none, "bar"⟩,
                     body := JVal.jstr "foo @tunnckoCore and @bar, right?" } {} =
    some { header := Header.structured ⟨"fix", none, "bar"⟩,
           body := JVal.jstr "foo @tunnckoCore and @bar, right?",
           mentions := some [⟨3, "@tunnckoCore", "tunnckoCore"⟩, ⟨20, "@bar", "bar"⟩] } := by
  decide

/-- C9: applying the empty plugin list is a no-op modulo the batch-arity
wrapping: an array input maps element-wise (in order, each element coerced
by `toCommitObject`, commit objects unchanged), and a single input becomes
the one-element sequence. -/
theorem claim_C9_theorem :
    ∀ (o : Options) (xs : List CommitLike) (l : List Commit) (c : Commit) (s : String),
      applyPlugins [] (CommitsInput.many xs) o = some (xs.map toCommitObject) ∧
      applyPlugins [] (CommitsInput.many (l.map CommitLike.obj)) o = some l ∧
      applyPlugins [] (CommitsInput.one (CommitLike.obj c)) o = some [c] ∧
      applyPlugins [] (CommitsInput.one (CommitLike.str s)) o = some [{ header := Header.raw s }] := by
  intro o xs l c s
  have key : ∀ (ys : List CommitLike) (acc : List Commit),
      ys.foldlM (fun racc x => (extendCommitCb [] o x).map (fun cc => racc ++ [cc])) acc
        = some (acc ++ ys.map toCommitObject) := by
    intro ys
    induction ys with
    | nil => intro acc; simp [List.foldlM]
    | cons y ys ih =>
      intro acc
      have step : (y :: ys).foldlM
            (fun racc x => (extendCommitCb [] o x).map (fun cc => racc ++ [cc])) acc =
          ys.foldlM (fun racc x => (extendCommitCb [] o x).map (fun cc => racc ++ [cc]))
            (acc ++ [toCommitObject y]) := rfl
      rw [step, ih]
      simp
  refine ⟨key xs [], ?_, rfl, rfl⟩
  rw [show applyPlugins [] (CommitsInput.many (l.map CommitLike.obj)) o =
      (l.map CommitLike.obj).foldlM
        (fun racc x => (extendCommitCb [] o x).map (fun cc => racc ++ [cc])) [] from rfl]
  rw [key]
  simp only [List.map_map, List.nil_append]
  rw [show (toCommitObject ∘ CommitLike.obj) = id from funext fun x => rfl, List.map_id]

/-- C10: each built-in plugin only attaches its own field: whenever
`incrementPlugin` (resp. `mentionsPlugin`) succeeds, the output commit is
the input commit with only `increment` (resp. `mentions`) replaced —
header (even a `Raw` one), body, footer and all other fields are those of
the input. -/
theorem claim_C10_theorem :
    (∀ (c : Commit) (o : Options) (c' : Commit),
        incrementPlugin c o = some c' → c' = { c with increment := c'.increment }) ∧
    (∀ (c : Commit) (o : Options) (c' : Commit),
        mentionsPlugin c o = some c' → c' = { c with mentions := c'.mentions }) := by
  constructor
  · intro c o c' h
    unfold incrementPlugin at h
    rcases hn : (if o.normalize then normalizeCommit c o else some c) with _ | cmt <;>
      rw [hn] at h
    · exact absurd h (by simp)
    · simp only [] at h
      rcases hb : isBreakingChange cmt with _ | isB <;> rw [hb] at h
      · exact absurd h (by simp)
      · simp only [] at h
        rcases hh : cmt.header with v | ht <;> rw [hh] at h
        · exact absurd h (by simp)
        · simp only [Option.some.injEq] at h
          subst h
          rfl
  · intro c o c' h
    unfold mentionsPlugin at h
    rcases hn : (if o.normalize then normalizeCommit c o else some c) with _ | cmt <;>
      rw [hn] at h
    · exact absurd h (by simp)
    · simp only [] at h
      rcases hh : cmt.header with v | ht <;> rw [hh] at h
      · exact absurd h (by simp)
      · simp only [Option.some.injEq] at h
        subst h
        rfl

/-- C10 (witness): both parts of the frame theorem applied to the concrete
commit with the raw header `"fix: a"` (which the plugins normalize
internally yet leave raw in their output). -/
theorem claim_C10_witness :
    ({ header := Header.raw "fix: a", increment := some "patch" } : Commit) =
      { ({ header := Header.raw "fix: a" } : Commit) with
        increment := ({ header := Header.raw "fix: a", increment := some "patch" } : Commit).increment } ∧
    ({ header := Header.raw "fix: a", mentions := some [] } : Commit) =
      { ({ header := Header.raw "fix: a" } : Commit) with
        mentions := ({ header := Header.raw "fix: a", mentions := some [] } : Commit).mentions } := by
  constructor
  · exact claim_C10_theorem.1 { header := Header.raw "fix: a" } {} _ (by decide)
  · exact claim_C10_theorem.2 { header := Header.raw "fix: a" } {} _ (by decide)

/-- C4: on every commit whose header is already structured, the increment
plugin succeeds and attaches to the original commit the classification
`"patch"` when the type matches `fix|bugfix|patch` case-insensitively,
overridden by `"minor"` on `feat|feature|minor`, overridden by `"major"`
when the commit is a breaking change; otherwise the empty string.  In
particular `{header: {type: "feat!", subject: "x"}}` receives `"major"`
(the breaking bang wins over the minor classification). -/
theorem claim_C4_theorem :
    (∀ (c : Commit) (ht : HeaderType) (o : Options), c.header = Header.structured ht →
      incrementPlugin c o = some { c with increment := some (
        if isBreakingBool ht c.body.orEmpty c.footer.orEmpty then "major"
        else if jsTestAlt ht.type ["feat".data, "feature".data, "minor".data] then "minor"
        else if jsTestAlt ht.type ["fix".data, "bugfix".data, "patch".data] then "patch"
        else "") }) ∧
    incrementPlugin { header := Header.structured ⟨"feat!", none, "x"⟩ } {} =
      some { header := Header.structured ⟨"feat!", none, "x"⟩, increment := some "major" } := by
  constructor
  · intro c ht o hH
    have hnorm : normalizeCommit c o = some c := by
      unfold normalizeCommit; rw [hH]
    have hcmt : (if o.normalize then normalizeCommit c o else some c) = some c := by
      cases o.normalize <;> simp [hnorm]
    have hbrk : isBreakingChange c = some (isBreakingBool ht c.body.orEmpty c.footer.orEmpty) := by
      unfold isBreakingChange; rw [hH]
    unfold incrementPlugin
    rw [hcmt]
    simp only []
    rw [hbrk]
    simp only []
    rw [hH]
  · decide

/-- C4 (witness): the general classification applied to a concrete
structured commit of type `fix`, evaluating to the `"patch"` increment. -/
theorem claim_C4_witness :
    incrementPlugin { header := Header.structured ⟨"fix", some "cli", "ok"⟩ } {} =
      some { header := Header.structured ⟨"fix", some "cli", "ok"⟩, increment := some "patch" } := by
  have h := claim_C4_theorem.1 { header := Header.structured ⟨"fix", some "cli", "ok"⟩ }
    ⟨"fix", some "cli", "ok"⟩ {} rfl
  rw [h]
  decide

/-- C6 (counterexample): the claim says `normalizeCommit` replaces a `Raw`
header with `stringToHeader(header.value.trim())`; but on the raw value
`" fix: a"` (leading space) the code throws — it passes the value to the
grammar engine UNtrimmed — even though the trimmed value parses fine. -/
theorem claim_C6_counterexample :
    normalizeCommit { header := Header.raw " fix: a" } {} = none ∧
    stringToHeader (String.mk (jsTrim " fix: a".data)) {} = some ⟨"fix", none, "a"⟩ := by
  exact ⟨rfl, by decide⟩

/-- C6 (amended): `normalizeCommit` returns a commit with a structured
header unchanged, and replaces a `Raw` header by the result of
`stringToHeader` applied to the UNtrimmed raw value (failing exactly when
that value does not match the grammar), leaving every other field of the
commit intact. -/
theorem claim_C6_theorem :
    ∀ (c : Commit) (o : Options),
      (∀ ht, c.header = Header.structured ht → normalizeCommit c o = some c) ∧
      (∀ v, c.header = Header.raw v →
        normalizeCommit c o =
          (stringToHeader v o).map (fun ht => { c with header := Header.structured ht })) := by
  intro c o
  constructor
  · intro ht h; unfold normalizeCommit; rw [h]
  · intro v h; unfold normalizeCommit; rw [h]

/-- C6 (witness): both parts at concrete commits; the raw value
`"fix: a "` keeps its trailing space in the parsed subject, because the
value is not trimmed before matching. -/
theorem claim_C6_witness :
    normalizeCommit { header := Header.raw "fix: a " } {} =
      (stringToHeader "fix: a " {}).map
        (fun ht => { ({ header := Header.raw "fix: a " } : Commit) with
          header := Header.structured ht }) ∧
    normalizeCommit { header := Header.structured ⟨"fix", none, "a"⟩ } {} =
      some { header := Header.structured ⟨"fix", none, "a"⟩ } := by
  exact ⟨(claim_C6_theorem { header := Header.raw "fix: a " } {}).2 "fix: a " rfl,
    (claim_C6_theorem { header := Header.structured ⟨"fix", none, "a"⟩ } {}).1
      ⟨"fix", none, "a"⟩ rfl⟩

/-- C8 (counterexample): a commit that `parseCommit` itself produces (from
`"fix: bar"`, which has no body and no footer) passes `checkCommit` with
`body` and `footer` still holding the JavaScript value `undefined`, not
`null`: the spread `{ body: null, ..., ...commit }` copies the explicit
`undefined` over the `null` default. -/
theorem claim_C8_counterexample :
    parseCommit "fix: bar" {} = some { header := Header.structured ⟨"fix", none, "bar"⟩,
                                       body := JVal.undef, footer := JVal.undef } ∧
    checkCommit { header := Header.structured ⟨"fix", none, "bar"⟩,
                  body := JVal.undef, footer := JVal.undef } =
      some { header := Header.structured ⟨"fix", none, "bar"⟩,
             body := JVal.undef, footer := JVal.undef } ∧
    ¬ strOrNull JVal.undef := by
  refine ⟨by decide, by decide, ?_⟩
  rintro (h | ⟨s, h⟩) <;> simp at h

/-- C8 (amended): whenever `checkCommit` succeeds, the returned header is
structured (the validated input header); `body`/`footer` become `null`
when the key was missing and otherwise keep the input value exactly — so
they are a string or `null` UNLESS the input key explicitly held
`undefined` (as `parseCommit` produces for an absent segment), in which
case `undefined` survives. -/
theorem claim_C8_theorem :
    ∀ (c c' : Commit), checkCommit c = some c' →
      (∃ ht, c'.header = Header.structured ht ∧ validateHeader c.header = some ht) ∧
      c'.body = (if c.body = JVal.absent then JVal.null else c.body) ∧
      c'.footer = (if c.footer = JVal.absent then JVal.null else c.footer) ∧
      (c.body ≠ JVal.undef → strOrNull c'.body) ∧
      (c.footer ≠ JVal.undef → strOrNull c'.footer) := by
  intro c c' h
  unfold checkCommit at h
  rcases hv : validateHeader c.header with _ | ht <;> rw [hv] at h
  · exact absurd h (by simp)
  · simp only [Option.some.injEq] at h
    subst h
    refine ⟨⟨ht, rfl, rfl⟩, rfl, rfl, ?_, ?_⟩
    · intro hne
      rcases hb : c.body with _ | _ | _ | s
      · simp [strOrNull, hb]
      · exact absurd hb hne
      · simp [strOrNull, hb]
      · simp [strOrNull, hb]
    · intro hne
      rcases hb : c.footer with _ | _ | _ | s
      · simp [strOrNull, hb]
      · exact absurd hb hne
      · simp [strOrNull, hb]
      · simp [strOrNull, hb]

/-- C8 (witness): the amended theorem applied to a commit carrying a
string body and a missing footer: the body survives as the same string
and the footer is defaulted to `null`, both string-or-null. -/
theorem claim_C8_witness :
    (∃ ht, (Header.structured (⟨"fix", none, "bar"⟩ : HeaderType)) = Header.structured ht ∧
      validateHeader (Header.structured ⟨"fix", none, "bar"⟩) = some ht) ∧
    strOrNull (JVal.jstr "B") ∧ strOrNull JVal.null := by
  have h := claim_C8_theorem
    { header := Header.structured ⟨"fix", none, "bar"⟩, body := JVal.jstr "B" }
    { header := Header.structured ⟨"fix", none, "bar"⟩, body := JVal.jstr "B",
      footer := JVal.null } (by decide)
  refine ⟨h.1, ?_, ?_⟩
  · have h4 := h.2.2.2.1 (by simp)
    simpa using h4
  · have h5 := h.2.2.2.2 (by simp)
    simpa using h5

/-- C3 (counterexample): `"fix(cli)!: bar qux"` matches the default
grammar (type `fix`, scope `cli`, bang, subject `bar qux`), has no
surrounding whitespace and no grammar-breaking characters — yet
stringifying the parsed header yields `"fix!(cli): bar qux"`, with the
bang moved before the scope: the round-trip law fails on headers carrying
both a scope and the `!` marker. -/
theorem claim_C3_counterexample :
    parseHeader "fix(cli)!: bar qux" {} = some ⟨"fix!", some "cli", "bar qux"⟩ ∧
    stringifyHeader (Header.structured ⟨"fix!", some "cli", "bar qux"⟩) =
      some "fix!(cli): bar qux" ∧
    ("fix!(cli): bar qux" : String) ≠ "fix(cli)!: bar qux" := by
  exact ⟨by decide, by decide, by decide⟩

/-- C3 (witness): the amended round-trip theorem applied to the concrete
header `"fix(cli): bar qux"` (scope, no bang). -/
theorem claim_C3_witness :
    stringifyHeader (Header.structured ⟨"fix", some "cli", "bar qux"⟩) =
      some "fix(cli): bar qux" := by
  exact claim_C3_theorem "fix(cli): bar qux" {} ⟨"fix", some "cli", "bar qux"⟩
    (by decide) (by decide) (by decide) (by decide)

/-- C2 (counterexample): on `"fix: a \n\nbody"` the parsed header subject
is `"a "` (with trailing space), but `parseHeader` of the substring before
the first blank-line boundary (`"fix: a "`) trims it to `"a"`: the header
returned by `parseCommit` is NOT `parseHeader` of the pre-boundary
substring, because `parseCommit` passes the whole text to `parseHeader`. -/
theorem claim_C2_counterexample :
    parseCommit "fix: a \n\nbody" {} = some { header := Header.structured ⟨"fix", none, "a "⟩,
                                              body := JVal.jstr "body",
                                              footer := JVal.undef } ∧
    parseHeader "fix: a " {} = some ⟨"fix", none, "a"⟩ ∧
    Header.structured (⟨"fix", none, "a "⟩ : HeaderType) ≠
      Header.structured ⟨"fix", none, "a"⟩ := by
  exact ⟨by decide, by decide, by decide⟩

/-- C2 (amended): `parseCommit` passes the ENTIRE commit text to
`parseHeader` (not just the part before the first `\n\n`); with the
default grammar the resulting structured header is determined by the first
line of the trimmed text, since no construct of the pattern can cross a
newline. -/
theorem claim_C2_theorem :
    ∀ (s : String) (o : Options) (c : Commit), parseCommit s o = some c →
      ∃ ht, c.header = Header.structured ht ∧ parseHeader s o = some ht ∧
        matchDefaultHeader ((jsTrim s.data).takeWhile (· != '\n')) = some ht := by
  intro s o c hpc
  rcases hne : isNonEmptyString s with _ | _
  · simp [parseCommit, hne] at hpc
  · rcases hph : parseHeader s o with _ | hd
    · simp [parseCommit, hne, hph] at hpc
    · simp only [parseCommit, hne, hph, if_true] at hpc
      simp only [Option.some.injEq] at hpc
      subst hpc
      refine ⟨hd, rfl, rfl, ?_⟩
      have hps : parseHeader s o = matchDefaultHeader (jsTrim s.data) := by
        simp [parseHeader, hne, stringToHeader]
      rw [← matchDefaultHeader_firstLine, ← hps, hph]

/-- C2 (witness): the amended theorem applied to the concrete commit
`"fix: a\n\nbody"`. -/
theorem claim_C2_witness :
    ∃ ht, ({ header := Header.structured ⟨"fix", none, "a"⟩, body := JVal.jstr "body",
             footer := JVal.undef } : Commit).header = Header.structured ht ∧
      parseHeader "fix: a\n\nbody" {} = some ht ∧
      matchDefaultHeader ((jsTrim ("fix: a\n\nbody").data).takeWhile (· != '\n')) = some ht := by
  exact claim_C2_theorem "fix: a\n\nbody" {}
    { header := Header.structured ⟨"fix", none, "a"⟩, body := JVal.jstr "body",
      footer := JVal.undef } (by decide)

/-- C1 (counterexample): `parseCommit` on `"feat: x"` (no blank-line
boundary, hence no body/footer segment) sets `body` and `footer` to the
JavaScript value `undefined` (the result of `null?.trim()`), not to
`null` as the claim states. -/
theorem claim_C1_counterexample :
    parseCommit "feat: x" {} = some { header := Header.structured ⟨"feat", none, "x"⟩,
                                      body := JVal.undef, footer := JVal.undef } ∧
    JVal.undef ≠ JVal.null := by
  exact ⟨by decide, by decide⟩

/-- C1 (amended): for EVERY accepted commit string, `body` is the first
segment after the first blank-line boundary (trimmed) and `footer` the
second (trimmed; any further segments are dropped); when a segment is
absent the corresponding field is the JavaScript value `undefined` (the
key is set to `undefined`, not `null`).  Stated twice: directly over the
blank-line split of an arbitrary accepted string, and over an arbitrary
decomposition of the input into any number of blank-line-joined segments
(every accepted string has exactly one such decomposition, its own
split). -/
theorem claim_C1_theorem :
    (∀ (s : String) (o : Options) (c : Commit), parseCommit s o = some c →
      c.body = (match (splitNN s.data).get? 1 with
        | some b => JVal.jstr (String.mk (jsTrim b))
        | none => JVal.undef) ∧
      c.footer = (match (splitNN s.data).get? 2 with
        | some f => JVal.jstr (String.mk (jsTrim f))
        | none => JVal.undef)) ∧
    (∀ (segs : List (List Char)) (o : Options) (c : Commit),
      (∀ seg ∈ segs, splitNN seg = [seg]) →
      (∀ seg ∈ segs.dropLast, seg.getLast? ≠ some '\n') →
      parseCommit (String.mk (joinNN segs)) o = some c →
      c.body = (match segs.get? 1 with
        | some b => JVal.jstr (String.mk (jsTrim b))
        | none => JVal.undef) ∧
      c.footer = (match segs.get? 2 with
        | some f => JVal.jstr (String.mk (jsTrim f))
        | none => JVal.undef)) := by
  constructor
  · intro s o c hpc
    rcases hne : isNonEmptyString s with _ | _
    · simp [parseCommit, hne] at hpc
    · rcases hph : parseHeader s o with _ | hd
      · simp [parseCommit, hne, hph] at hpc
      · simp only [parseCommit, hne, hph, if_true, Option.some.injEq] at hpc
        subst hpc
        have h1 : ((splitNN s.data).drop 1).get? 0 = (splitNN s.data).get? 1 := by
          simp [List.get?_eq_getElem?, List.getElem?_drop]
        have h2 : ((splitNN s.data).drop 1).get? 1 = (splitNN s.data).get? 2 := by
          simp [List.get?_eq_getElem?, List.getElem?_drop]
        constructor
        · exact congrArg (fun q => match q with
            | some b => JVal.jstr (String.mk (jsTrim b))
            | none => JVal.undef) h1
        · exact congrArg (fun q => match q with
            | some f => JVal.jstr (String.mk (jsTrim f))
            | none => JVal.undef) h2
  · intro segs o c hall hlast hpc
    rcases segs with _ | ⟨h0, rest⟩
    · simp [parseCommit, isNonEmptyString, joinNN] at hpc
    · have hsp : splitNN (joinNN (h0 :: rest)) = h0 :: rest :=
        splitNN_joinNN (h0 :: rest) (by simp) hall hlast
      rcases hne : isNonEmptyString (String.mk (joinNN (h0 :: rest))) with _ | _
      · simp [parseCommit, hne] at hpc
      · rcases hph : parseHeader (String.mk (joinNN (h0 :: rest))) o with _ | hd
        · simp [parseCommit, hne, hph] at hpc
        · simp only [parseCommit, hne, hph, if_true, Option.some.injEq] at hpc
          subst hpc
          have h1 : ((splitNN (joinNN (h0 :: rest))).drop 1).get? 0 = (h0 :: rest).get? 1 := by
            rw [hsp]
            simp [List.get?_eq_getElem?, List.getElem?_drop]
          have h2 : ((splitNN (joinNN (h0 :: rest))).drop 1).get? 1 = (h0 :: rest).get? 2 := by
            rw [hsp]
            simp [List.get?_eq_getElem?, List.getElem?_drop]
          constructor
          · exact congrArg (fun q => match q with
              | some b => JVal.jstr (String.mk (jsTrim b))
              | none => JVal.undef) h1
          · exact congrArg (fun q => match q with
              | some f => JVal.jstr (String.mk (jsTrim f))
              | none => JVal.undef) h2

/-- C1 (witness): the amended theorem applied to the four-segment commit
`"fix: x\n\nB\n\nF\n\nG"`: the body is the first segment `B`, the footer
the second segment `F`, and the extra segment `G` is dropped. -/
theorem claim_C1_witness :
    (({ header := Header.structured ⟨"fix", none, "x"⟩, body := JVal.jstr "B",
        footer := JVal.jstr "F" } : Commit).body =
      (match (["fix: x".data, "B".data, "F".data, "G".data] : List (List Char)).get? 1 with
        | some b => JVal.jstr (String.mk (jsTrim b))
        | none => JVal.undef)) ∧
    (({ header := Header.structured ⟨"fix", none, "x"⟩, body := JVal.jstr "B",
        footer := JVal.jstr "F" } : Commit).footer =
      (match (["fix: x".data, "B".data, "F".data, "G".data] : List (List Char)).get? 2 with
        | some f => JVal.jstr (String.mk (jsTrim f))
        | none => JVal.undef)) := by
  exact claim_C1_theorem.2 ["fix: x".data, "B".data, "F".data, "G".data] {}
    { header := Header.structured ⟨"fix", none, "x"⟩, body := JVal.jstr "B",
      footer := JVal.jstr "F" }
    (by decide) (by decide) (by decide)

end PCM
